import Mathlib

/-!
Shallow embedding of `RDParser.js`, a single-pass recursive-descent
expression parser/evaluator with mutable variable bindings.

Modelling conventions:

* JavaScript numbers (IEEE-754 doubles) are modelled as exact rationals
  (`ℚ`).  Every computation exercised by the theorems below stays inside
  small integer arithmetic, where double arithmetic is exact, so the
  rational model agrees with the source.  Division by zero (which yields
  `Infinity`/`NaN` in JS), non-integer exponents in `Math.pow`, and
  arithmetic on the pre-seeded `Infinity` constant are outside the
  rational model; the corresponding functions return a junk value `0`
  in those (never exercised) corners.  The `PI` constant is seeded with
  the exact rational value of the double `Math.PI`
  (884279719003555 / 2^48).
* JS values flowing through the evaluator are numbers, booleans (from
  the comparison operators and the `true`/`false` constants) and
  `Infinity`; they are modelled by `JSVal`.
* Binding cells (`Lvalue` instances and auto-vivified variable objects)
  live in an explicit store (`St.store`); references are indices into
  the store, which makes object-identity claims (freshness / aliasing)
  statable.  A binding with `lvalue = true` models an `Lvalue` instance
  whose `value` setter throws; `lvalue = false` models the plain mutable
  `{ value, lvalue: false }` objects created for identifiers.
* The sticky regexes of the source are hand-translated into anchored
  matching functions with the same ordered-alternation and
  backtracking behaviour (each alternative carries its negative
  lookahead).  `\s` is modelled by the ASCII whitespace characters;
  all inputs in the theorems are ASCII.
* Recursion in the parser is bounded by a fuel parameter; running out of
  fuel produces the model-only error `Err.outOfFuel`, mirroring the
  source's reliance on the finite JS call stack.  The fuel supplied by
  `evaluateJS` is far larger than any input below needs.
* Failures are modelled with `Except`.  `Err.badArgs` and
  `Err.missingOp` are model-only stand-ins for the `TypeError`s JS
  would raise if an `exec` function were applied to the wrong number of
  binding arguments or a matched token were missing from the
  `operations` table; both are unreachable.  One dark corner is not
  modelled: an identifier literally named `__proto__` would interact
  with the prototype chain of the `variables` object in JS; no theorem
  below mentions such a name.
-/

/-- A JavaScript value as it can appear in a binding of this program:
a (finite) number, a boolean, or the `Infinity` constant. -/
inductive JSVal where
  | num (q : ℚ)
  | boolV (b : Bool)
  | inf
deriving DecidableEq, Repr

/-- `ToNumber` coercion for the values that occur here.  `inf` is
outside the rational model and coerces to the junk value 0; no theorem
relies on arithmetic over `inf`. -/
def toQ : JSVal → ℚ
  | .num q => q
  | .boolV b => if b then 1 else 0
  | .inf => 0

/-- JS truthiness of a value. -/
def truthy : JSVal → Bool
  | .num q => decide (q ≠ 0)
  | .boolV b => b
  | .inf => true

/-- Truncation toward zero of a rational (the integer part used by the
`|0` coercion and the `%` remainder). -/
def ratTrunc (q : ℚ) : ℤ := q.num.tdiv q.den

/-- Wrap an integer into the signed 32-bit range, as `ToInt32` does. -/
def int32ofZ (x : ℤ) : ℤ :=
  let m := x % 4294967296
  if m < 2147483648 then m else m - 4294967296

/-- `ToInt32` of a rational (JS `q | 0`): truncate toward zero, then
wrap into the signed 32-bit range. -/
def toInt32 (q : ℚ) : ℤ := int32ofZ (ratTrunc q)

/-- `ToUint32` of a rational, as a natural number (the 32-bit pattern). -/
def toUint32 (q : ℚ) : ℕ := ((ratTrunc q) % 4294967296).toNat

/-- Reinterpret a 32-bit pattern as a signed 32-bit integer. -/
def int32ofPattern (n : ℕ) : ℤ :=
  if n < 2147483648 then (n : ℤ) else (n : ℤ) - 4294967296

/-- JS `Math.pow` on the rational model.  Integer exponents are exact;
a non-integer exponent generally yields an irrational number, which is
outside the model (junk value 0, never exercised). -/
def powQ (x y : ℚ) : ℚ :=
  if y.den = 1 then
    if 0 ≤ y.num then x ^ y.num.toNat else (x ^ (-y.num).toNat)⁻¹
  else 0

/-- JS `%` (truncating remainder) on the rational model.  `y = 0`
yields `NaN` in JS, junk 0 here (never exercised). -/
def remQ (x y : ℚ) : ℚ := if y = 0 then 0 else x - y * (ratTrunc (x / y) : ℚ)

/-- JS `/`.  Division by zero yields `Infinity`/`NaN` in JS; the
rational model returns 0 there (never exercised). -/
def divQ (x y : ℚ) : ℚ := x / y

/-- JS `<<`: `ToInt32` of the left operand shifted by the low five bits
of `ToUint32` of the right operand, wrapped back to 32 bits. -/
def shlQ (x y : ℚ) : ℤ := int32ofZ (toInt32 x * 2 ^ (toUint32 y % 32))

/-- JS `>>` (sign-propagating): floor division by the power of two. -/
def shrQ (x y : ℚ) : ℤ := (toInt32 x).fdiv (2 ^ (toUint32 y % 32))

/-- JS `>>>` (zero-fill): the unsigned 32-bit pattern shifted right. -/
def shrUQ (x y : ℚ) : ℤ := ((toUint32 x) / 2 ^ (toUint32 y % 32) : ℕ)

/-- JS `&` on 32-bit patterns. -/
def bandQ (x y : ℚ) : ℤ := int32ofPattern (Nat.land (toUint32 x) (toUint32 y))

/-- JS `|` on 32-bit patterns. -/
def borQ (x y : ℚ) : ℤ := int32ofPattern (Nat.lor (toUint32 x) (toUint32 y))

/-- JS `^` on 32-bit patterns. -/
def bxorQ (x y : ℚ) : ℤ := int32ofPattern (Nat.xor (toUint32 x) (toUint32 y))

/-- JS `~`: bitwise not, `-ToInt32(x) - 1`. -/
def bnotQ (x : ℚ) : ℤ := -(toInt32 x) - 1

/-- JS loose equality `==` restricted to the values occurring here:
numbers and booleans compare after numeric coercion; `Infinity` equals
only itself. -/
def looseEq : JSVal → JSVal → Bool
  | .inf, .inf => true
  | .inf, _ => false
  | _, .inf => false
  | a, b => decide (toQ a = toQ b)

/-- JS strict equality `===`: same type and same value. -/
def strictEq : JSVal → JSVal → Bool
  | .num p, .num q => decide (p = q)
  | .boolV x, .boolV y => x == y
  | .inf, .inf => true
  | _, _ => false

/-- Value function of the `+` entry of `Parser.prototype.operations`. -/
def jsAdd (a b : JSVal) : JSVal := .num (toQ a + toQ b)

/-- Value function of the `-` entry. -/
def jsSub (a b : JSVal) : JSVal := .num (toQ a - toQ b)

/-- Value function of the `*` entry. -/
def jsMul (a b : JSVal) : JSVal := .num (toQ a * toQ b)

/-- Value function of the `/` entry. -/
def jsDiv (a b : JSVal) : JSVal := .num (divQ (toQ a) (toQ b))

/-- Value function of the `%` entry. -/
def jsRem (a b : JSVal) : JSVal := .num (remQ (toQ a) (toQ b))

/-- Value function of the `**` entry (`Math.pow`). -/
def jsPow (a b : JSVal) : JSVal := .num (powQ (toQ a) (toQ b))

/-- Value function of the `==` entry. -/
def jsLooseEq (a b : JSVal) : JSVal := .boolV (looseEq a b)

/-- Value function of the `!=` entry. -/
def jsLooseNe (a b : JSVal) : JSVal := .boolV (!looseEq a b)

/-- Value function of the `===` entry. -/
def jsStrictEq (a b : JSVal) : JSVal := .boolV (strictEq a b)

/-- Value function of the `!==` entry. -/
def jsStrictNe (a b : JSVal) : JSVal := .boolV (!strictEq a b)

/-- Value function of the `<=` entry. -/
def jsLe (a b : JSVal) : JSVal := .boolV (decide (toQ a ≤ toQ b))

/-- Value function of the `<` entry. -/
def jsLt (a b : JSVal) : JSVal := .boolV (decide (toQ a < toQ b))

/-- Value function of the `>=` entry. -/
def jsGe (a b : JSVal) : JSVal := .boolV (decide (toQ b ≤ toQ a))

/-- Value function of the `>` entry. -/
def jsGt (a b : JSVal) : JSVal := .boolV (decide (toQ b < toQ a))

/-- Value function of the `||` entry: `a.value || b.value` returns one
of the operand values (no short-circuit at this level; both operands
were already evaluated by the parser). -/
def jsOr (a b : JSVal) : JSVal := if truthy a then a else b

/-- Value function of the `&&` entry: `a.value && b.value`. -/
def jsAnd (a b : JSVal) : JSVal := if truthy a then b else a

/-- Value function of the `|` entry. -/
def jsBitOr (a b : JSVal) : JSVal := .num ((borQ (toQ a) (toQ b) : ℤ) : ℚ)

/-- Value function of the `^` entry. -/
def jsBitXor (a b : JSVal) : JSVal := .num ((bxorQ (toQ a) (toQ b) : ℤ) : ℚ)

/-- Value function of the `&` entry. -/
def jsBitAnd (a b : JSVal) : JSVal := .num ((bandQ (toQ a) (toQ b) : ℤ) : ℚ)

/-- Value function of the `>>>` entry. -/
def jsShrU (a b : JSVal) : JSVal := .num ((shrUQ (toQ a) (toQ b) : ℤ) : ℚ)

/-- Value function of the `>>` entry. -/
def jsShr (a b : JSVal) : JSVal := .num ((shrQ (toQ a) (toQ b) : ℤ) : ℚ)

/-- Value function of the `<<` entry. -/
def jsShl (a b : JSVal) : JSVal := .num ((shlQ (toQ a) (toQ b) : ℤ) : ℚ)

/-! ### The factorial helper

Source:
`let factorial = (() => { let factorialCache = [];
  return a => (a |= 0) < 1 ? 1 : factorialCache.length > a ?
    factorialCache[a] : (factorialCache[a] = a * factorial(a - 1)); })();`
-/

/-- Reference recursive factorial on naturals, producing rationals
(the multiplications happen in JS number arithmetic). -/
def factGo : ℕ → ℚ
  | 0 => 1
  | k + 1 => ((k + 1 : ℕ) : ℚ) * factGo k

/-- Reference (non-memoized) recursive definition of the source's
`factorial`: truncate the argument with the 32-bit `|0` coercion,
return 1 below 1, otherwise `n * factorial (n - 1)`. -/
def factorialRef (q : ℚ) : ℚ :=
  let n := toInt32 q
  if n < 1 then 1 else factGo n.toNat

/-- Write `v` at index `i` of the cache list, growing it (with filler
zeroes for the JS array holes, which are never read on reachable
caches) when `i` is beyond the current length. -/
def cacheSet (c : List ℚ) (i : ℕ) (v : ℚ) : List ℚ :=
  if i < c.length then c.set i v
  else c ++ List.replicate (i - c.length) 0 ++ [v]

/-- The memoized factorial of the source on an argument already known
to be the positive integer `k` (as `(a |= 0)` leaves it): check the
cache (`factorialCache.length > a`), otherwise recurse on `a - 1` and
store the product at index `a`. -/
def factMemoNat : ℕ → List ℚ → ℚ × List ℚ
  | 0, c => (1, c)
  | k + 1, c =>
    if k + 1 < c.length then (c.getD (k + 1) 0, c)
    else
      let rc := factMemoNat k c
      let v := ((k + 1 : ℕ) : ℚ) * rc.1
      (v, cacheSet rc.2 (k + 1) v)

/-- The source's `factorial`: coerce with `|0`; arguments below 1
return 1 without touching the cache; otherwise run the memoized
recursion. -/
def factorialMemo (c : List ℚ) (q : ℚ) : ℚ × List ℚ :=
  let n := toInt32 q
  if n < 1 then (1, c) else factMemoNat n.toNat c

/-- Invariant of the factorial cache: every filled slot at index
`i ≥ 1` holds the factorial of `i` (index 0 is the permanent JS array
hole and unconstrained). -/
def CacheOK (c : List ℚ) : Prop :=
  ∀ i, i < c.length → 1 ≤ i → c.getD i 0 = factGo i

/-! ### Bindings, state, errors, and the evaluation monad -/

/-- A binding cell: the `lvalue = true` cells model `Lvalue` instances
(whose `value` setter throws), the `lvalue = false` cells model the
mutable `{ value: 0, lvalue: false }` objects made for identifiers. -/
structure Binding where
  value : JSVal
  lvalue : Bool
deriving DecidableEq, Repr

/-- Default binding handed back for an out-of-range store read (never
reachable: all references handed out are store indices). -/
def dfltB : Binding := ⟨.num 0, true⟩

/-- Full evaluation state: the scanner (`text`, `pos`), the store of
binding cells, the identifier environment (`this.variables`), and the
module-level factorial cache. -/
structure St where
  text : List Char
  pos : ℕ
  store : List Binding
  env : List (String × ℕ)
  cache : List ℚ
deriving Repr

/-- Errors of the evaluator.  The first three carry the offset, as the
source's messages do.  `outOfFuel`, `badArgs` and `missingOp` are
model-only (see header). -/
inductive Err where
  | expectedValue (pos : ℕ)
  | expectedClose (pos : ℕ)
  | unexpectedChar (pos : ℕ)
  | immutableBinding
  | arityError
  | outOfFuel
  | badArgs
  | missingOp
deriving DecidableEq, Repr

/-- The evaluation monad: state plus exceptions. -/
def JsM (α : Type) : Type := St → Except Err (α × St)

/-- Sequencing in the evaluation monad. -/
def jsBind {α β : Type} (m : JsM α) (f : α → JsM β) : JsM β := fun st =>
  match m st with
  | .error e => .error e
  | .ok (a, st') => f a st'

instance : Monad JsM where
  pure a := fun st => .ok (a, st)
  bind := jsBind

/-- Throw an error. -/
def throwJs {α : Type} (e : Err) : JsM α := fun _ => .error e

/-- Throw an error that carries the current scanner offset. -/
def throwAt {α : Type} (f : ℕ → Err) : JsM α := fun st => .error (f st.pos)

/-- Read the value held by a store reference. -/
def readRef (st : St) (r : ℕ) : JSVal := (st.store.getD r dfltB).value

/-- Monadic read of a binding's `value`. -/
def getV (r : ℕ) : JsM JSVal := fun st => .ok (readRef st r, st)

/-- Monadic read of a binding's `lvalue` flag. -/
def getLv (r : ℕ) : JsM Bool := fun st => .ok ((st.store.getD r dfltB).lvalue, st)

/-- Assign to a binding: setting `value` on an `Lvalue` throws
(`Cannot assign to an lvalue`), a mutable cell is updated in place. -/
def putV (r : ℕ) (v : JSVal) : JsM Unit := fun st =>
  if (st.store.getD r dfltB).lvalue then .error .immutableBinding
  else .ok ((), { st with store := st.store.set r ⟨v, false⟩ })

/-- Append a fresh immutable `Lvalue` cell holding `v` to the store. -/
def pushLv (st : St) (v : JSVal) : St := { st with store := st.store ++ [⟨v, true⟩] }

/-- `new Lvalue(v)`: allocate a fresh immutable binding, returning its
reference. -/
def mkLv (v : JSVal) : JsM ℕ := fun st => .ok (st.store.length, pushLv st v)

/-! ### The scanner -/

/-- ASCII whitespace, the fragment of the regex class `\s` that the
inputs here can contain. -/
def wsChar (c : Char) : Bool :=
  c == ' ' || c == '\t' || c == '\n' || c == '\r' || c == '\x0b' || c == '\x0c'

/-- Length of the whitespace run at the head of the list. -/
def wsCount : List Char → ℕ
  | [] => 0
  | c :: cs => if wsChar c then wsCount cs + 1 else 0

/-- `skipWhitespace`: advance the cursor past any whitespace run. -/
def skipWsSt (st : St) : St := { st with pos := st.pos + wsCount (st.text.drop st.pos) }

/-- Anchored literal match: `litAt t s p = some p'` iff the characters
of `s` occur in `t` starting exactly at `p`, with `p'` just past them. -/
def litAt (t : List Char) : List Char → ℕ → Option ℕ
  | [], p => some p
  | c :: cs, p =>
    match t.get? p with
    | some c' => if c' = c then litAt t cs (p + 1) else none
    | none => none

/-- Ordered alternation of literal tokens, each with a negative
lookahead (`bad` holds of characters that must not follow); a failing
lookahead backtracks into the remaining alternatives, as the source
regexes do. -/
def altLit (t : List Char) (p : ℕ) : List (String × (Char → Bool)) → Option (String × ℕ)
  | [] => none
  | (s, bad) :: rest =>
    match litAt t s.data p with
    | some p' =>
      match t.get? p' with
      | some c => if bad c then altLit t p rest else some (s, p')
      | none => some (s, p')
    | none => altLit t p rest

/-- An empty negative lookahead. -/
def noBad : Char → Bool := fun _ => false

/-- Digit run: accumulated value and number of characters consumed. -/
def digitsAux (acc : ℕ) : List Char → ℕ × ℕ
  | [] => (acc, 0)
  | c :: cs =>
    if c.isDigit then
      let r := digitsAux (10 * acc + (c.toNat - 48)) cs
      (r.1, r.2 + 1)
    else (acc, 0)

/-- `regNumber = /\d+(\.\d+)?([eE]\d+)?/y` followed by `parseFloat`:
returns the exact rational value of the matched numeral and the new
cursor.  A `.` or `e` not followed by a digit is not consumed (the
optional groups backtrack to empty, as in the regex). -/
def matchNumber (t : List Char) (p : ℕ) : Option (ℚ × ℕ) :=
  let r1 := digitsAux 0 (t.drop p)
  if r1.2 = 0 then none
  else
    let p1 := p + r1.2
    let fr :=
      match t.drop p1 with
      | '.' :: ds =>
        let r2 := digitsAux 0 ds
        if r2.2 = 0 then (0, 0) else (r2.1, r2.2)
      | _ => (0, 0)
    let p2 := if fr.2 = 0 then p1 else p1 + 1 + fr.2
    let ex :=
      match t.drop p2 with
      | c :: ds =>
        if c == 'e' || c == 'E' then
          let r3 := digitsAux 0 ds
          if r3.2 = 0 then (0, 0) else (r3.1, r3.2)
        else (0, 0)
      | _ => (0, 0)
    let p3 := if ex.2 = 0 then p2 else p2 + 1 + ex.2
    some (((r1.1 : ℚ) + (fr.1 : ℚ) / ((10 : ℚ) ^ fr.2)) * (10 : ℚ) ^ ex.1, p3)

/-- Length of the identifier-tail run `[a-zA-Z_\d]*`. -/
def identTail : List Char → ℕ
  | [] => 0
  | c :: cs => if c.isAlpha || c == '_' || c.isDigit then identTail cs + 1 else 0

/-- `regIdent = /[a-zA-Z_][a-zA-Z_\d]*/y`: the matched name and the new
cursor. -/
def matchIdent (t : List Char) (p : ℕ) : Option (String × ℕ) :=
  match t.drop p with
  | c :: cs =>
    if c.isAlpha || c == '_' then
      let n := identTail cs
      some (String.mk (List.take (n + 1) (t.drop p)), p + n + 1)
    else none
  | [] => none

/-- Consume `[;\s]*`. -/
def eosTail : List Char → ℕ
  | [] => 0
  | c :: cs => if c == ';' || wsChar c then eosTail cs + 1 else 0

/-- `regEOS = /\s*;[;\s]*/y`. -/
def matchEOS (t : List Char) (p : ℕ) : Option ℕ :=
  let w := wsCount (t.drop p)
  match t.get? (p + w) with
  | some c => if c = ';' then some (p + w + 1 + eosTail (t.drop (p + w + 1))) else none
  | none => none

/-- The token level table `Parser.prototype.rules`, one anchored
matcher per precedence level, in source push order (level 0 = comma is
the loosest).  Each alternative carries the negative lookahead of the
source regex; the ordered alternation reproduces the regex backtracking
(e.g. at `>>>=` level 8 matches `>>`, since `>>>` is vetoed by its
`(?!=)` lookahead). -/
def ruleMatch (lvl : ℕ) (t : List Char) (p : ℕ) : Option (String × ℕ) :=
  match lvl with
  | 0 => altLit t p [(",", noBad)]
  | 1 => altLit t p
      [("=", noBad), ("+=", noBad), ("-=", noBad), ("**=", noBad), ("*=", noBad),
       ("/=", noBad), ("%=", noBad), ("<<=", noBad), (">>>=", noBad), (">>=", noBad),
       ("&=", noBad), ("^=", noBad), ("|=", noBad)]
  | 2 => altLit t p [("||", noBad)]
  | 3 => altLit t p [("&&", noBad)]
  | 4 => altLit t p [("|", fun c => c == '|' || c == '=')]
  | 5 => altLit t p [("^", fun c => c == '=')]
  | 6 => altLit t p [("&", fun c => c == '&' || c == '=')]
  | 7 => altLit t p [("===", noBad), ("==", noBad), ("!==", noBad), ("!=", noBad)]
  | 8 => altLit t p
      [(">>>", fun c => c == '='), (">>", fun c => c == '='), ("<<", fun c => c == '=')]
  | 9 => altLit t p
      [("<=", fun c => c == '<'), ("<", fun c => c == '<'),
       (">=", fun c => c == '>'), (">", fun c => c == '>')]
  | 10 => altLit t p
      [("+", fun c => c == '+' || c == '='), ("-", fun c => c == '-' || c == '=')]
  | 11 => altLit t p
      [("*", fun c => c == '*' || c == '='), ("/", fun c => c == '='),
       ("%", fun c => c == '=')]
  | 12 => altLit t p [("**", fun c => c == '=')]
  | 13 => altLit t p [("!", fun c => c == '=')]
  | _ => none

/-- `Parser.prototype.rules.length`. -/
def rulesLength : ℕ := 14

/-- `regPrefix = /\+\+|--|\+|-|!|~/y` (ordered alternation). -/
def preAlts : List (String × (Char → Bool)) :=
  [("++", noBad), ("--", noBad), ("+", noBad), ("-", noBad), ("!", noBad), ("~", noBad)]

/-- `regPostfix = /(\+\+)|(--)/y`. -/
def postAlts : List (String × (Char → Bool)) := [("++", noBad), ("--", noBad)]

/-- `Expression.accept` for a token alternation: on success, advance
the cursor and skip trailing whitespace. -/
def acceptAlts (alts : List (String × (Char → Bool))) : JsM (Option String) := fun st =>
  match altLit st.text st.pos alts with
  | none => .ok (none, st)
  | some (tok, p') => .ok (some tok, skipWsSt { st with pos := p' })

/-- `Expression.accept` for a level of the rules table. -/
def acceptRule (lvl : ℕ) : JsM (Option String) := fun st =>
  match ruleMatch lvl st.text st.pos with
  | none => .ok (none, st)
  | some (tok, p') => .ok (some tok, skipWsSt { st with pos := p' })

/-- `Expression.accept` for a single literal (the parentheses). -/
def acceptLit (s : String) : JsM Bool := fun st =>
  match litAt st.text s.data st.pos with
  | none => .ok (false, st)
  | some p' => .ok (true, skipWsSt { st with pos := p' })

/-- `Parser.number`: accept a numeric literal and wrap it in a fresh
`Lvalue`. -/
def acceptNumber : JsM (Option ℕ) := fun st =>
  match matchNumber st.text st.pos with
  | none => .ok (none, st)
  | some (q, p') =>
    let st1 := skipWsSt { st with pos := p' }
    .ok (some st1.store.length, pushLv st1 (.num q))

/-- `Parser.identifier`: accept an identifier; a name not yet present
in `this.variables` is auto-created as a mutable binding holding 0. -/
def acceptIdent : JsM (Option ℕ) := fun st =>
  match matchIdent st.text st.pos with
  | none => .ok (none, st)
  | some (name, p') =>
    let st1 := skipWsSt { st with pos := p' }
    match st1.env.lookup name with
    | some r => .ok (some r, st1)
    | none =>
      .ok (some st1.store.length,
        { st1 with
          store := st1.store ++ [⟨.num 0, false⟩],
          env := st1.env ++ [(name, st1.store.length)] })

/-! ### The operations table -/

/-- An entry of `Parser.prototype.operations`: the function arity
(`exec.length`, which drives the dispatch in `Parser.operator`), the
`right` associativity flag, and the `exec` behaviour itself, taking the
already-evaluated operand bindings. -/
structure OpDesc where
  arity : ℕ
  right : Bool
  exec : List ℕ → JsM ℕ

/-- `exec` of a plain binary operator: read both operands and wrap the
computed value in a fresh `Lvalue`. -/
def binExec (f : JSVal → JSVal → JSVal) : List ℕ → JsM ℕ
  | [a, b] => getV a >>= fun va => getV b >>= fun vb => mkLv (f va vb)
  | _ => throwJs .badArgs

/-- `exec` of `,`: `(a, b) => b` — yields the right operand binding
itself. -/
def commaExec : List ℕ → JsM ℕ
  | [_, b] => pure b
  | _ => throwJs .badArgs

/-- `exec` of `=`: `(a, b) => (a.value = b.value, a)` — store the right
value into the left binding (throwing on an `Lvalue`) and return the
left binding itself. -/
def assignExec : List ℕ → JsM ℕ
  | [a, b] => getV b >>= fun vb => putV a vb >>= fun _ => pure a
  | _ => throwJs .badArgs

/-- `exec` of a compound assignment: read both operands, store the
computed number into the left binding, return the left binding. -/
def compExec (f : ℚ → ℚ → ℚ) : List ℕ → JsM ℕ
  | [a, b] => getV a >>= fun va => getV b >>= fun vb =>
      putV a (.num (f (toQ va) (toQ vb))) >>= fun _ => pure a
  | _ => throwJs .badArgs

/-- `exec` of postfix `++`/`--`: `a => new Lvalue(a.value++)` — mutate
the operand in place by `d`, but return a fresh `Lvalue` holding the
old (numerically coerced) value. -/
def postExec (d : ℚ) : List ℕ → JsM ℕ
  | [a] => getV a >>= fun va =>
      putV a (.num (toQ va + d)) >>= fun _ => mkLv (.num (toQ va))
  | _ => throwJs .badArgs

/-- `exec` of postfix `!`: run the memoized factorial against the
module-level cache and wrap the result in a fresh `Lvalue`. -/
def factExec : List ℕ → JsM ℕ
  | [a] => fun st =>
    let rc := factorialMemo st.cache (toQ (readRef st a))
    mkLv (.num rc.1) { st with cache := rc.2 }
  | _ => throwJs .badArgs

/-- `Parser.prototype.operations`, in source order.  Arities are the
JS function lengths; `right` is the source's `right` property (absent
on `++`, `--`, `!`, hence falsy). -/
def opsTable : List (String × OpDesc) :=
  [("++", ⟨1, false, postExec 1⟩),
   ("--", ⟨1, false, postExec (-1)⟩),
   (",", ⟨2, false, commaExec⟩),
   ("+", ⟨2, false, binExec jsAdd⟩),
   ("-", ⟨2, false, binExec jsSub⟩),
   ("*", ⟨2, false, binExec jsMul⟩),
   ("/", ⟨2, false, binExec jsDiv⟩),
   ("%", ⟨2, false, binExec jsRem⟩),
   ("**", ⟨2, true, binExec jsPow⟩),
   ("!", ⟨1, false, factExec⟩),
   ("=", ⟨2, true, assignExec⟩),
   ("**=", ⟨2, true, compExec powQ⟩),
   ("*=", ⟨2, true, compExec (· * ·)⟩),
   ("+=", ⟨2, true, compExec (· + ·)⟩),
   ("-=", ⟨2, true, compExec (· - ·)⟩),
   ("/=", ⟨2, true, compExec divQ⟩),
   ("%=", ⟨2, true, compExec remQ⟩),
   (">>>=", ⟨2, true, compExec (fun x y => ((shrUQ x y : ℤ) : ℚ))⟩),
   (">>=", ⟨2, true, compExec (fun x y => ((shrQ x y : ℤ) : ℚ))⟩),
   ("<<=", ⟨2, true, compExec (fun x y => ((shlQ x y : ℤ) : ℚ))⟩),
   ("&=", ⟨2, true, compExec (fun x y => ((bandQ x y : ℤ) : ℚ))⟩),
   ("^=", ⟨2, true, compExec (fun x y => ((bxorQ x y : ℤ) : ℚ))⟩),
   ("|=", ⟨2, true, compExec (fun x y => ((borQ x y : ℤ) : ℚ))⟩),
   ("==", ⟨2, false, binExec jsLooseEq⟩),
   ("===", ⟨2, false, binExec jsStrictEq⟩),
   ("!=", ⟨2, false, binExec jsLooseNe⟩),
   ("!==", ⟨2, false, binExec jsStrictNe⟩),
   ("<=", ⟨2, false, binExec jsLe⟩),
   ("<", ⟨2, false, binExec jsLt⟩),
   (">=", ⟨2, false, binExec jsGe⟩),
   (">", ⟨2, false, binExec jsGt⟩),
   ("||", ⟨2, false, binExec jsOr⟩),
   ("&&", ⟨2, false, binExec jsAnd⟩),
   ("|", ⟨2, false, binExec jsBitOr⟩),
   ("^", ⟨2, false, binExec jsBitXor⟩),
   ("&", ⟨2, false, binExec jsBitAnd⟩),
   (">>>", ⟨2, false, binExec jsShrU⟩),
   (">>", ⟨2, false, binExec jsShr⟩),
   ("<<", ⟨2, false, binExec jsShl⟩)]

/-- Property lookup in the operations table. -/
def opsLookup (s : String) : Option OpDesc := (opsTable.lookup s)

/-- Prefix `++`/`--`: `a => new Lvalue(++a.value)` — mutate in place
(throwing on an `Lvalue`), return a fresh `Lvalue` with the new value. -/
def preIncr (d : ℚ) (a : ℕ) : JsM ℕ :=
  getV a >>= fun va => putV a (.num (toQ va + d)) >>= fun _ => mkLv (.num (toQ va + d))

/-- `Parser.prototype.prefixOps`, in source order.  Note unary `+` is
`new Lvalue(a.value)` — the raw value, with no numeric coercion. -/
def preTable : List (String × (ℕ → JsM ℕ)) :=
  [("++", preIncr 1),
   ("--", preIncr (-1)),
   ("+", fun a => getV a >>= fun va => mkLv va),
   ("-", fun a => getV a >>= fun va => mkLv (.num (-(toQ va)))),
   ("~", fun a => getV a >>= fun va => mkLv (.num ((bnotQ (toQ va) : ℤ) : ℚ))),
   ("!", fun a => getV a >>= fun va => mkLv (.boolV (!truthy va)))]

/-- Lookup in the prefix table. -/
def preLookup (s : String) : Option (ℕ → JsM ℕ) := preTable.lookup s

/-! ### The parser/evaluator -/

/-- The mutually recursive nonterminals of the parser, folded into one
fueled function: `value`, `parenthesis`, the prefix rule, `operator`
(descent into a level, and its operator-consuming loop), and
`expression`. -/
inductive PMode where
  | val
  | paren
  | pre
  | opLvl (lvl : ℕ)
  | opLoop (lvl : ℕ) (cur : ℕ)
  | expr

/-- `Parser.value`: a numeric literal or an identifier (tried in that
order); a mutable variable binding may take one postfix `++`/`--`,
whose table entry is applied to it directly. -/
def valStep : JsM ℕ :=
  acceptNumber >>= fun n? =>
    (match n? with
      | some r => pure (some r)
      | none => acceptIdent) >>= fun r? =>
      match r? with
      | none => throwAt .expectedValue
      | some r =>
        getLv r >>= fun lv =>
          if lv then pure r
          else
            acceptAlts postAlts >>= fun post? =>
              match post? with
              | some post =>
                match opsLookup post with
                | some d => d.exec [r]
                | none => throwJs .missingOp
              | none => pure r

/-- `Parser.parenthesis`: a parenthesized full expression, or a value. -/
def parenStep (rec : PMode → JsM ℕ) : JsM ℕ :=
  acceptLit "(" >>= fun b =>
    if b then
      rec .expr >>= fun r =>
        acceptLit ")" >>= fun b2 =>
          if b2 then pure r else throwAt .expectedClose
    else rec .val

/-- `Parser.prefix`: a prefix operator applied to a prefix-level term,
or a parenthesized term. -/
def preStep (rec : PMode → JsM ℕ) : JsM ℕ :=
  acceptAlts preAlts >>= fun tok? =>
    match tok? with
    | some tok =>
      match preLookup tok with
      | some g => rec .pre >>= fun x => g x
      | none => throwJs .missingOp
    | none => rec .paren

/-- `Parser.operator`, descent part: below the last level, parse the
operand at the next-tighter level and enter the operator loop. -/
def opLvlStep (rec : PMode → JsM ℕ) (lvl : ℕ) : JsM ℕ :=
  if lvl ≥ rulesLength then rec .pre
  else rec (.opLvl (lvl + 1)) >>= fun v => rec (.opLoop lvl v)

/-- `Parser.operator`, loop part: while a token of this level matches,
dispatch on the entry's arity (`exec.length`), recursing into the same
level for a right-associative binary operator and the next level
otherwise; an arity above 2 would hit the defensive `ArityError`
branch. -/
def opLoopStep (rec : PMode → JsM ℕ) (lvl cur : ℕ) : JsM ℕ :=
  acceptRule lvl >>= fun tok? =>
    match tok? with
    | none => pure cur
    | some tok =>
      match opsLookup tok with
      | none => throwJs .missingOp
      | some d =>
        match d.arity with
        | 0 => d.exec [] >>= fun v => rec (.opLoop lvl v)
        | 1 => d.exec [cur] >>= fun v => rec (.opLoop lvl v)
        | 2 =>
          rec (.opLvl (if d.right then lvl else lvl + 1)) >>= fun rhs =>
            d.exec [cur, rhs] >>= fun v => rec (.opLoop lvl v)
        | _ + 3 => throwJs .arityError

/-- One layer of the recursive-descent parser/evaluator of `Parser`;
`rec` stands for the recursive calls (tied by `parseRun`). -/
def parseStep (rec : PMode → JsM ℕ) (mode : PMode) : JsM ℕ :=
  match mode with
  | .val => valStep
  | .paren => parenStep rec
  | .pre => preStep rec
  | .opLvl lvl => opLvlStep rec lvl
  | .opLoop lvl cur => opLoopStep rec lvl cur
  | .expr => rec (.opLvl 0)

/-- The fueled parser/evaluator: tie the recursion of `parseStep`,
spending one unit of fuel per recursive call (the source recursion is
bounded by the JS call stack; `Err.outOfFuel` is the model's
analogue).  Written as a plain `Nat.rec` so that concrete runs reduce
linearly. -/
def parseRun (fuel : ℕ) : PMode → JsM ℕ :=
  Nat.rec (motive := fun _ => PMode → JsM ℕ)
    (fun _ => throwJs .outOfFuel) (fun _ ih => parseStep ih) fuel

/-- One layer of the statement loop of `Parser.evaluate`: while input
remains, require a `;` separator (else `Unexpected character`), and if
non-whitespace input follows it, evaluate another expression,
overwriting the running result. -/
def evalStep (pfuel : ℕ) (rec : ℕ → JsM ℕ) (ret : ℕ) : JsM ℕ := fun st =>
  if st.pos < st.text.length then
    match matchEOS st.text st.pos with
    | some p' =>
      if (skipWsSt { st with pos := p' }).pos < (skipWsSt { st with pos := p' }).text.length then
        (parseRun pfuel .expr >>= fun r => rec r) (skipWsSt { st with pos := p' })
      else rec ret (skipWsSt { st with pos := p' })
    | none => .error (.unexpectedChar st.pos)
  else .ok (ret, st)

/-- The fueled statement loop. -/
def evalLoop (fuel : ℕ) : ℕ → JsM ℕ :=
  Nat.rec (motive := fun _ => ℕ → JsM ℕ)
    (fun _ => throwJs .outOfFuel) (fun f ih => evalStep f ih) fuel

/-- The persistent state of a `Parser` instance (plus the module-level
factorial cache, which in JS outlives even the instance). -/
structure PState where
  store : List Binding
  env : List (String × ℕ)
  cache : List ℚ
deriving Repr

/-- The pre-seeded constants of the `Parser` constructor, each its own
immutable `Lvalue` cell. -/
def piQ : ℚ := 884279719003555 / 281474976710656

/-- Initial store: the six seeded `Lvalue`s. -/
def initStore : List Binding :=
  [⟨.boolV true, true⟩, ⟨.boolV false, true⟩, ⟨.inf, true⟩, ⟨.inf, true⟩,
   ⟨.num piQ, true⟩, ⟨.num piQ, true⟩]

/-- Initial environment mapping the seeded names to their cells. -/
def initEnv : List (String × ℕ) :=
  [("true", 0), ("false", 1), ("Infinity", 2), ("infinity", 3), ("PI", 4), ("pi", 5)]

/-- A freshly constructed `Parser` instance. -/
def initState : PState := ⟨initStore, initEnv, []⟩

/-- Ample fuel for an input: the source recursion consumes call-stack
depth roughly proportional to input length times the number of levels. -/
def fuelFor (t : List Char) : ℕ := 64 * (t.length + 2)

/-- `Parser.evaluate(text)`: construct the scanner (skipping leading
whitespace), evaluate the first expression, run the statement loop, and
return the final binding's `value` together with the instance state
left behind. -/
def evaluateJS (p : PState) (text : String) : Except Err (JSVal × PState) :=
  match (parseRun (fuelFor text.data) .expr >>= fun r =>
      evalLoop (fuelFor text.data) r >>= fun r2 => getV r2)
      (skipWsSt ⟨text.data, 0, p.store, p.env, p.cache⟩) with
  | .error e => .error e
  | .ok (v, st') => .ok (v, ⟨st'.store, st'.env, st'.cache⟩)

/-- Just the value computed by `evaluate`. -/
def evalVal (p : PState) (text : String) : Except Err JSVal :=
  (evaluateJS p text).map (·.1)

/-- The current value of a variable binding in an instance state. -/
def varValue (p : PState) (name : String) : Option JSVal :=
  (p.env.lookup name).map (fun r => (p.store.getD r dfltB).value)

/-- Whether a name is bound to a mutable (non-`Lvalue`) cell. -/
def varMutable (p : PState) (name : String) : Option Bool :=
  (p.env.lookup name).map (fun r => !(p.store.getD r dfltB).lvalue)

/-! ### Helper lemmas: list access -/

theorem getD_set_self {α : Type} (d v : α) :
    ∀ (l : List α) (i : ℕ), i < l.length → (l.set i v).getD i d = v := by
  intro l
  induction l with
  | nil => intro i h; simp at h
  | cons a t ih =>
    intro i h
    cases i with
    | zero => rfl
    | succ j => simpa using ih j (by simpa using h)

theorem getD_set_ne {α : Type} (d v : α) (i j : ℕ) (h : i ≠ j) :
    ∀ (l : List α), (l.set i v).getD j d = l.getD j d := by
  intro l
  induction l generalizing i j with
  | nil => simp [List.set]
  | cons a t ih =>
    cases i with
    | zero =>
      cases j with
      | zero => exact absurd rfl h
      | succ j' => simp
    | succ i' =>
      cases j with
      | zero => simp
      | succ j' => simpa using ih i' j' (by omega)

theorem getD_append_left {α : Type} (d : α) :
    ∀ (l l' : List α) (i : ℕ), i < l.length → (l ++ l').getD i d = l.getD i d := by
  intro l
  induction l with
  | nil => intro l' i h; simp at h
  | cons a t ih =>
    intro l' i h
    cases i with
    | zero => rfl
    | succ j => simpa using ih l' j (by simpa using h)

theorem getD_append_right {α : Type} (d : α) :
    ∀ (l l' : List α) (k : ℕ), (l ++ l').getD (l.length + k) d = l'.getD k d := by
  intro l
  induction l with
  | nil => intro l' k; simp
  | cons a t ih =>
    intro l' k
    have : t.length + 1 + k = (t.length + k) + 1 := by omega
    simpa [this] using ih l' k

/-! ### Helper lemmas: the factorial cache -/

theorem cacheSet_length (c : List ℚ) (i : ℕ) (v : ℚ) :
    (cacheSet c i v).length = max c.length (i + 1) := by
  unfold cacheSet
  split
  · rw [List.length_set]; omega
  · simp; omega

theorem cacheSet_getD_self (c : List ℚ) (i : ℕ) (v : ℚ) :
    (cacheSet c i v).getD i 0 = v := by
  unfold cacheSet
  split
  · exact getD_set_self 0 v c i (by assumption)
  · rw [List.append_assoc]
    have h2 := getD_append_right (0 : ℚ) c (List.replicate (i - c.length) 0 ++ [v]) (i - c.length)
    rw [show c.length + (i - c.length) = i from by omega] at h2
    rw [h2]
    have h3 := getD_append_right (0 : ℚ) (List.replicate (i - c.length) 0) [v] 0
    rw [show (List.replicate (i - c.length) (0 : ℚ)).length + 0 = i - c.length from by simp] at h3
    rw [h3]
    rfl

theorem cacheSet_getD_lt (c : List ℚ) (i j : ℕ) (v : ℚ) (hj : j < c.length) (hne : i ≠ j) :
    (cacheSet c i v).getD j 0 = c.getD j 0 := by
  unfold cacheSet
  split
  · exact getD_set_ne 0 v i j hne c
  · rw [List.append_assoc]
    exact getD_append_left 0 c _ j hj

theorem factMemoNat_correct :
    ∀ (k : ℕ) (c : List ℚ), CacheOK c →
      (factMemoNat k c).1 = factGo k ∧ CacheOK (factMemoNat k c).2 ∧
        (k + 1 ≤ (factMemoNat k c).2.length ∨ (k = 0 ∧ (factMemoNat k c).2 = c)) := by
  intro k
  induction k with
  | zero => intro c hc; exact ⟨rfl, hc, Or.inr ⟨rfl, rfl⟩⟩
  | succ k ih =>
    intro c hc
    by_cases h : k + 1 < c.length
    · have he : factMemoNat (k + 1) c = (c.getD (k + 1) 0, c) := by
        simp [factMemoNat, h]
      rw [he]
      exact ⟨hc (k + 1) h (by omega), hc, Or.inl (by simp; omega)⟩
    · obtain ⟨h1, h2, h3⟩ := ih c hc
      have he : factMemoNat (k + 1) c =
          (((k + 1 : ℕ) : ℚ) * (factMemoNat k c).1,
            cacheSet (factMemoNat k c).2 (k + 1) (((k + 1 : ℕ) : ℚ) * (factMemoNat k c).1)) := by
        simp [factMemoNat, h]
      rw [he]
      refine ⟨by rw [h1]; rfl, ?_, Or.inl (by rw [cacheSet_length]; omega)⟩
      intro i hi h1i
      rw [cacheSet_length] at hi
      by_cases hik : i = k + 1
      · subst hik
        rw [cacheSet_getD_self, h1]
        rfl
      · rcases h3 with hlen | ⟨hk0, hceq⟩
        · have hilen : i < (factMemoNat k c).2.length := by
            rcases Nat.lt_or_ge i (factMemoNat k c).2.length with h' | h'
            · exact h'
            · omega
          rw [cacheSet_getD_lt _ _ _ _ hilen (by omega)]
          exact h2 i hilen h1i
        · exfalso
          subst hk0
          rw [hceq] at hi
          omega

theorem factorialMemo_refines (c : List ℚ) (q : ℚ) (h : CacheOK c) :
    (factorialMemo c q).1 = factorialRef q ∧ CacheOK (factorialMemo c q).2 := by
  unfold factorialMemo factorialRef
  by_cases hn : toInt32 q < 1
  · simp [hn]; exact h
  · simp [hn]
    obtain ⟨h1, h2, _⟩ := factMemoNat_correct (toInt32 q).toNat c h
    exact ⟨h1, h2⟩

/-! ### Helper lemmas: the evaluation monad and the exec combinators -/

theorem bind_eq_jsBind {α β : Type} (m : JsM α) (f : α → JsM β) : (m >>= f) = jsBind m f := rfl

theorem jsBind_ok {α β : Type} (m : JsM α) (f : α → JsM β) (st st' : St) (a : α)
    (h : m st = .ok (a, st')) : jsBind m f st = f a st' := by
  unfold jsBind; rw [h]

theorem jsBind_err {α β : Type} (m : JsM α) (f : α → JsM β) (st : St) (e : Err)
    (h : m st = .error e) : jsBind m f st = .error e := by
  unfold jsBind; rw [h]

theorem pure_apply {α : Type} (a : α) (st : St) : (pure a : JsM α) st = .ok (a, st) := rfl

theorem getV_apply (r : ℕ) (st : St) : getV r st = .ok (readRef st r, st) := rfl

theorem getLv_apply (r : ℕ) (st : St) :
    getLv r st = .ok ((st.store.getD r dfltB).lvalue, st) := rfl

theorem mkLv_apply (v : JSVal) (st : St) : mkLv v st = .ok (st.store.length, pushLv st v) := rfl

theorem putV_apply_true (r : ℕ) (v : JSVal) (st : St)
    (h : (st.store.getD r dfltB).lvalue = true) :
    putV r v st = .error .immutableBinding := by
  unfold putV; rw [h]; rfl

theorem putV_apply_false (r : ℕ) (v : JSVal) (st : St)
    (h : (st.store.getD r dfltB).lvalue = false) :
    putV r v st = .ok ((), { st with store := st.store.set r ⟨v, false⟩ }) := by
  unfold putV; rw [h]; rfl

theorem getD_append_last {α : Type} (d : α) (l : List α) (x : α) :
    (l ++ [x]).getD l.length d = x := by
  have h := getD_append_right d l [x] 0
  rw [Nat.add_zero] at h
  exact h

theorem assignExec_immutable (st : St) (a b : ℕ)
    (h : (st.store.getD a dfltB).lvalue = true) :
    assignExec [a, b] st = .error .immutableBinding := by
  simp only [assignExec, bind_eq_jsBind]
  rw [jsBind_ok _ _ _ _ _ (getV_apply b st)]
  show jsBind (putV a (readRef st b)) (fun _ => pure a) st = .error .immutableBinding
  rw [jsBind_err _ _ _ _ (putV_apply_true _ _ _ h)]

theorem compExec_immutable (f : ℚ → ℚ → ℚ) (st : St) (a b : ℕ)
    (h : (st.store.getD a dfltB).lvalue = true) :
    compExec f [a, b] st = .error .immutableBinding := by
  simp only [compExec, bind_eq_jsBind]
  rw [jsBind_ok _ _ _ _ _ (getV_apply a st)]
  show jsBind (getV b) (fun vb =>
      jsBind (putV a (.num (f (toQ (readRef st a)) (toQ vb)))) (fun _ => pure a)) st =
    .error .immutableBinding
  rw [jsBind_ok _ _ _ _ _ (getV_apply b st)]
  show jsBind (putV a (.num (f (toQ (readRef st a)) (toQ (readRef st b)))))
      (fun _ => pure a) st = .error .immutableBinding
  rw [jsBind_err _ _ _ _ (putV_apply_true _ _ _ h)]

theorem assignExec_ok_shape (st : St) (a b : ℕ) (r : ℕ) (st' : St)
    (h : assignExec [a, b] st = .ok (r, st')) :
    (st.store.getD a dfltB).lvalue = false ∧ r = a ∧
      st' = { st with store := st.store.set a ⟨readRef st b, false⟩ } := by
  simp only [assignExec, bind_eq_jsBind] at h
  rw [jsBind_ok _ _ _ _ _ (getV_apply b st)] at h
  replace h : jsBind (putV a (readRef st b)) (fun _ => pure a) st = .ok (r, st') := h
  cases hlv : (st.store.getD a dfltB).lvalue with
  | true =>
    rw [jsBind_err _ _ _ _ (putV_apply_true _ _ _ hlv)] at h
    exact absurd h (by simp)
  | false =>
    rw [jsBind_ok _ _ _ _ _ (putV_apply_false _ _ _ hlv)] at h
    rw [pure_apply, Except.ok.injEq, Prod.mk.injEq] at h
    exact ⟨rfl, h.1.symm, h.2.symm⟩

/-! ### Helper lemmas: freshness of computed results -/

theorem binExec_fresh (f : JSVal → JSVal → JSVal) :
    ∀ args st r st', binExec f args st = .ok (r, st') →
      r = st.store.length ∧ (st'.store.getD r dfltB).lvalue = true ∧
      (∀ v, putV r v st' = .error .immutableBinding) ∧
      ∀ x ∈ args, x < st.store.length → r ≠ x := by
  intro args st r st' h
  rcases args with _ | ⟨a, _ | ⟨b, _ | ⟨c, rest⟩⟩⟩
  · exact absurd h (by simp [binExec, throwJs])
  · exact absurd h (by simp [binExec, throwJs])
  · simp only [binExec, bind_eq_jsBind] at h
    rw [jsBind_ok _ _ _ _ _ (getV_apply a st)] at h
    replace h : jsBind (getV b) (fun vb => mkLv (f (readRef st a) vb)) st = .ok (r, st') := h
    rw [jsBind_ok _ _ _ _ _ (getV_apply b st)] at h
    replace h : mkLv (f (readRef st a) (readRef st b)) st = .ok (r, st') := h
    rw [mkLv_apply, Except.ok.injEq, Prod.mk.injEq] at h
    obtain ⟨h1, h2⟩ := h
    subst h1
    subst h2
    have hlast : ((pushLv st (f (readRef st a) (readRef st b))).store.getD
        st.store.length dfltB).lvalue = true := by
      show ((st.store ++ [(⟨f (readRef st a) (readRef st b), true⟩ : Binding)]).getD
        st.store.length dfltB).lvalue = true
      rw [getD_append_last]
    refine ⟨rfl, hlast, fun v => putV_apply_true _ _ _ hlast, ?_⟩
    intro x hx hlt
    omega
  · exact absurd h (by simp [binExec, throwJs])

theorem postExec_fresh (d : ℚ) :
    ∀ args st r st', postExec d args st = .ok (r, st') →
      r = st.store.length ∧ (st'.store.getD r dfltB).lvalue = true ∧
      (∀ v, putV r v st' = .error .immutableBinding) ∧
      ∀ x ∈ args, x < st.store.length → r ≠ x := by
  intro args st r st' h
  rcases args with _ | ⟨a, _ | ⟨b, rest⟩⟩
  · exact absurd h (by simp [postExec, throwJs])
  · simp only [postExec, bind_eq_jsBind] at h
    rw [jsBind_ok _ _ _ _ _ (getV_apply a st)] at h
    replace h : jsBind (putV a (.num (toQ (readRef st a) + d)))
        (fun _ => mkLv (.num (toQ (readRef st a)))) st = .ok (r, st') := h
    cases hlv : (st.store.getD a dfltB).lvalue with
    | true =>
      rw [jsBind_err _ _ _ _ (putV_apply_true _ _ _ hlv)] at h
      exact absurd h (by simp)
    | false =>
      rw [jsBind_ok _ _ _ _ _ (putV_apply_false _ _ _ hlv)] at h
      replace h : mkLv (.num (toQ (readRef st a)))
          { st with store := st.store.set a ⟨.num (toQ (readRef st a) + d), false⟩ } =
          .ok (r, st') := h
      rw [mkLv_apply, Except.ok.injEq, Prod.mk.injEq] at h
      obtain ⟨h1, h2⟩ := h
      have hlen : (st.store.set a ⟨.num (toQ (readRef st a) + d), false⟩).length
          = st.store.length := by simp
      subst h2
      have hr : r = st.store.length := by
        simp only [St.mk.injEq] at h1 ⊢
        omega
      subst hr
      have hlast : ((pushLv { st with store := st.store.set a ⟨.num (toQ (readRef st a) + d), false⟩ }
          (.num (toQ (readRef st a)))).store.getD st.store.length dfltB).lvalue = true := by
        show (((st.store.set a ⟨.num (toQ (readRef st a) + d), false⟩) ++
          [(⟨.num (toQ (readRef st a)), true⟩ : Binding)]).getD st.store.length dfltB).lvalue = true
        rw [← hlen, getD_append_last]
      refine ⟨rfl, hlast, fun v => putV_apply_true _ _ _ hlast, ?_⟩
      intro x hx hlt
      simp at hx
      omega
  · exact absurd h (by simp [postExec, throwJs])

theorem factExec_fresh :
    ∀ args st r st', factExec args st = .ok (r, st') →
      r = st.store.length ∧ (st'.store.getD r dfltB).lvalue = true ∧
      (∀ v, putV r v st' = .error .immutableBinding) ∧
      ∀ x ∈ args, x < st.store.length → r ≠ x := by
  intro args st r st' h
  rcases args with _ | ⟨a, _ | ⟨b, rest⟩⟩
  · exact absurd h (by simp [factExec, throwJs])
  · replace h : mkLv (.num (factorialMemo st.cache (toQ (readRef st a))).1)
        { st with cache := (factorialMemo st.cache (toQ (readRef st a))).2 } = .ok (r, st') := h
    rw [mkLv_apply, Except.ok.injEq, Prod.mk.injEq] at h
    obtain ⟨h1, h2⟩ := h
    subst h1
    subst h2
    have hlast : ((pushLv { st with cache := (factorialMemo st.cache (toQ (readRef st a))).2 }
        (.num (factorialMemo st.cache (toQ (readRef st a))).1)).store.getD
        st.store.length dfltB).lvalue = true := by
      show ((st.store ++ [(⟨.num (factorialMemo st.cache (toQ (readRef st a))).1, true⟩ : Binding)]).getD
        st.store.length dfltB).lvalue = true
      rw [getD_append_last]
    refine ⟨rfl, hlast, fun v => putV_apply_true _ _ _ hlast, ?_⟩
    intro x hx hlt
    simp at hx
    have hst : ({ st with cache := (factorialMemo st.cache (toQ (readRef st a))).2 } : St).store.length
        = st.store.length := rfl
    omega
  · exact absurd h (by simp [factExec, throwJs])

/-! ### The claims -/

/-- The tokens of the assignment family (level 1 of the rules table). -/
def assignFamily : List String :=
  ["=", "**=", "*=", "+=", "-=", "/=", "%=", ">>>=", ">>=", "<<=", "&=", "^=", "|="]

/-- The operations whose `exec` hands back an operand binding instead of
a fresh one: the assignment family and the comma operator. -/
def nonFreshOps : List String :=
  [",", "=", "**=", "*=", "+=", "-=", "/=", "%=", ">>>=", ">>=", "<<=", "&=", "^=", "|="]

/-- C1 (counterexample): the claim says a shift binds tighter than a
relational comparison, so `1 << 2 < 3` would group as `(1 << 2) < 3`
and produce `false`.  The code instead produces `2`, the value of
`1 << (2 < 3)`: in the `rules` array the shifts sit at level 8, below
the relational operators at level 9. -/
theorem shift_precedence_cex :
    evalVal initState "1 << 2 < 3" = .ok (.num 2) ∧
    evalVal initState "(1 << 2) < 3" = .ok (.boolV false) ∧
    (Except.ok (JSVal.num 2) : Except Err JSVal) ≠ .ok (.boolV false) := by
  refine ⟨by with_unfolding_all rfl, by with_unfolding_all rfl, by simp⟩

/-- C1 (amended): in the precedence ordering of the `rules` array the
shift operators occupy a lower level (8) than the relational operators
(9), so a relational comparison binds tighter than a shift:
`1 << 2 < 3` groups as `1 << (2 < 3)` (value 2) and `5 < 2 << 3`
groups as `(5 < 2) << 3` (value 0). -/
theorem relational_tighter_than_shift :
    evalVal initState "1 << 2 < 3" = evalVal initState "1 << (2 < 3)" ∧
    evalVal initState "1 << 2 < 3" = .ok (.num 2) ∧
    evalVal initState "5 < 2 << 3" = evalVal initState "(5 < 2) << 3" ∧
    evalVal initState "5 < 2 << 3" = .ok (.num 0) := by
  refine ⟨?_, by with_unfolding_all rfl, ?_, by with_unfolding_all rfl⟩
  · have h1 : evalVal initState "1 << 2 < 3" = .ok (.num 2) := by with_unfolding_all rfl
    have h2 : evalVal initState "1 << (2 < 3)" = .ok (.num 2) := by with_unfolding_all rfl
    rw [h1, h2]
  · have h1 : evalVal initState "5 < 2 << 3" = .ok (.num 0) := by with_unfolding_all rfl
    have h2 : evalVal initState "(5 < 2) << 3" = .ok (.num 0) := by with_unfolding_all rfl
    rw [h1, h2]

/-- C2: an assignment-family operation whose left operand is not a
mutable variable binding raises the immutable-binding error: this holds
for every assignment-family entry of the operations table applied to an
immutable (`Lvalue`) left operand, and concretely for assigning to the
pre-seeded constant `true` and to the computed value `(1+1)`. -/
theorem assign_to_immutable_errors :
    (∀ e ∈ opsTable, e.1 ∈ assignFamily →
      ∀ st a b, (st.store.getD a dfltB).lvalue = true →
        e.2.exec [a, b] st = .error .immutableBinding) ∧
    evalVal initState "true = 0" = .error .immutableBinding ∧
    evalVal initState "(1+1) = 3" = .error .immutableBinding := by
  refine ⟨?_, by with_unfolding_all rfl, by with_unfolding_all rfl⟩
  intro e he hfam st a b hlv
  fin_cases he <;>
    first
      | exact absurd hfam (by decide)
      | exact assignExec_immutable st a b hlv
      | exact compExec_immutable _ st a b hlv
      | exact compExec_immutable (fun x y => ((shrUQ x y : ℤ) : ℚ)) st a b hlv
      | exact compExec_immutable (fun x y => ((shrQ x y : ℤ) : ℚ)) st a b hlv
      | exact compExec_immutable (fun x y => ((shlQ x y : ℤ) : ℚ)) st a b hlv
      | exact compExec_immutable (fun x y => ((bandQ x y : ℤ) : ℚ)) st a b hlv
      | exact compExec_immutable (fun x y => ((bxorQ x y : ℤ) : ℚ)) st a b hlv
      | exact compExec_immutable (fun x y => ((borQ x y : ℤ) : ℚ)) st a b hlv

/-- A one-binding state whose single cell is the immutable `true`
constant, used to instantiate the assignment-error theorem. -/
def c2st : St := ⟨[], 0, [⟨.boolV true, true⟩], [], []⟩

/-- Witness for C2: plain `=` applied to the immutable binding of
`c2st` raises the immutable-binding error. -/
theorem assign_to_immutable_errors_witness :
    assignExec [0, 1] c2st = .error .immutableBinding :=
  assign_to_immutable_errors.1 ("=", ⟨2, true, assignExec⟩)
    (by unfold opsTable; repeat first | exact List.Mem.head _ | apply List.Mem.tail)
    (by decide) c2st 0 1 rfl

/-- C3: `||` and `&&` do not short-circuit — the right operand is
evaluated (with its side effects) before the operator applies, so after
`0 && (x = 5)` the variable `x` holds 5 even though the result is 0,
and likewise for `1 || (x = 5)`. -/
theorem logical_ops_eager :
    (evaluateJS initState "0 && (x = 5)").map (fun vp => (vp.1, varValue vp.2 "x"))
      = .ok (.num 0, some (.num 5)) ∧
    (evaluateJS initState "1 || (x = 5)").map (fun vp => (vp.1, varValue vp.2 "x"))
      = .ok (.num 1, some (.num 5)) := by
  exact ⟨by with_unfolding_all rfl, by with_unfolding_all rfl⟩

/-- C4: the exponent operator is right-associative: its table entry
carries `right = true`, and `2**3**2` groups as `2**(3**2) = 512`, not
as `(2**3)**2 = 64`. -/
theorem exponent_right_assoc :
    evalVal initState "2**3**2" = .ok (.num 512) ∧
    evalVal initState "2**3**2" = evalVal initState "2**(3**2)" ∧
    evalVal initState "(2**3)**2" = .ok (.num 64) ∧
    (opsLookup "**").map OpDesc.right = some true := by
  refine ⟨by with_unfolding_all rfl, ?_, by with_unfolding_all rfl, by with_unfolding_all rfl⟩
  have h1 : evalVal initState "2**3**2" = .ok (.num 512) := by with_unfolding_all rfl
  have h2 : evalVal initState "2**(3**2)" = .ok (.num 512) := by with_unfolding_all rfl
  rw [h1, h2]

/-- C5: the memoized factorial returns exactly the value of the
reference recursive definition (32-bit truncation, 1 below 1, else
`n * factorial (n-1)`) and preserves the cache invariant, so repeated
calls never change the value; concretely `5!` is 120, `0!` is 1 and
`-1!` is 1. -/
theorem factorial_memo_correct (c : List ℚ) (q : ℚ) (h : CacheOK c) :
    (factorialMemo c q).1 = factorialRef q ∧ CacheOK (factorialMemo c q).2 ∧
    evalVal initState "5!" = .ok (.num 120) ∧
    evalVal initState "0!" = .ok (.num 1) ∧
    evalVal initState "-1!" = .ok (.num 1) :=
  ⟨(factorialMemo_refines c q h).1, (factorialMemo_refines c q h).2,
    by with_unfolding_all rfl, by with_unfolding_all rfl, by with_unfolding_all rfl⟩

/-- Witness for C5: the empty cache (the module's initial state)
satisfies the invariant, and the theorem applies to it at input 5. -/
theorem factorial_memo_correct_witness :
    (factorialMemo [] 5).1 = factorialRef 5 ∧ CacheOK (factorialMemo [] 5).2 ∧
    evalVal initState "5!" = .ok (.num 120) ∧
    evalVal initState "0!" = .ok (.num 1) ∧
    evalVal initState "-1!" = .ok (.num 1) :=
  factorial_memo_correct [] 5 (fun i hi _ => absurd hi (by simp))

/-- C6: the environment persists across `evaluate` calls on the same
instance — after `x=5; x+1` returns 6, a second call sees `x = 5` —
and a never-assigned identifier is auto-created as a mutable binding
holding 0, so evaluating it yields 0 rather than failing. -/
theorem environment_persists :
    (do
      let vp ← evaluateJS initState "x=5; x+1"
      let vp2 ← evaluateJS vp.2 "x"
      pure (vp.1, vp2.1)) = Except.ok (JSVal.num 6, JSVal.num 5) ∧
    (evaluateJS initState "y").map (fun vp => (vp.1, varValue vp.2 "y", varMutable vp.2 "y"))
      = .ok (.num 0, some (.num 0), some true) := by
  exact ⟨by with_unfolding_all rfl, by with_unfolding_all rfl⟩

/-- C7 (counterexample): the claim says every operator outside the
assignment family and increment/decrement yields a fresh immutable
binding that can never be written.  The comma operator refutes it:
`(a, b) => b` returns the right operand binding itself, so
`(0, x) = 5` assigns straight through the comma result and succeeds
with value 5, and `commaExec` provably allocates nothing. -/
theorem comma_returns_operand_cex :
    evalVal initState "(0, x) = 5" = .ok (.num 5) ∧
    (evaluateJS initState "(0, x) = 5").map (fun vp => varValue vp.2 "x")
      = .ok (some (.num 5)) ∧
    commaExec [0, 1] c2st = .ok (1, c2st) := by
  exact ⟨by with_unfolding_all rfl, by with_unfolding_all rfl, rfl⟩

/-- C7 (amended): every operation outside the assignment family and
the comma operator — including postfix increment/decrement, which
mutate their operand in place but still hand back a fresh cell —
returns a freshly allocated immutable binding, distinct from every
valid operand reference, and any subsequent write to it fails; the
assignment family returns the left operand binding itself and comma
returns the right operand binding itself. -/
theorem fresh_immutable_results :
    (∀ e ∈ opsTable, e.1 ∉ nonFreshOps →
      ∀ args st r st', e.2.exec args st = .ok (r, st') →
        r = st.store.length ∧ (st'.store.getD r dfltB).lvalue = true ∧
        (∀ v, putV r v st' = .error .immutableBinding) ∧
        ∀ x ∈ args, x < st.store.length → r ≠ x) ∧
    (∀ a b st, commaExec [a, b] st = .ok (b, st)) ∧
    (∀ a b st r st', assignExec [a, b] st = .ok (r, st') → r = a) := by
  refine ⟨?_, fun a b st => rfl, fun a b st r st' h => (assignExec_ok_shape st a b r st' h).2.1⟩
  intro e he hne
  fin_cases he <;>
    first
      | exact absurd (by decide) hne
      | exact binExec_fresh _
      | exact postExec_fresh _
      | exact factExec_fresh

/-- A one-binding state holding the mutable variable cell `0`, and the
state left after running postfix `!` on it. -/
def c7st : St := ⟨[], 0, [⟨.num 0, false⟩], [], []⟩

/-- The state after `factExec [0]` on `c7st`: the fresh immutable
result cell holding `0! = 1` has been appended. -/
def c7st' : St := ⟨[], 0, [⟨.num 0, false⟩, ⟨.num 1, true⟩], [], []⟩

/-- Witness for C7: the factorial entry applied to the mutable cell of
`c7st` allocates the fresh immutable cell 1 of `c7st'`, and writing to
that result fails. -/
theorem fresh_immutable_results_witness :
    putV 1 (.num 3) c7st' = .error .immutableBinding :=
  (fresh_immutable_results.1 ("!", ⟨1, false, factExec⟩)
    (by unfold opsTable; repeat first | exact List.Mem.head _ | apply List.Mem.tail)
    (by decide) [0] c7st 1 c7st' (by with_unfolding_all rfl)).2.2.1 (.num 3)

/-- C9 (counterexample): the claim says whitespace-only input fails
with the expected-value error at offset 0; the scanner first skips the
whitespace, so the reported offset for a single space is 1, not 0. -/
theorem empty_input_syntax_error_cex :
    evalVal initState " " = .error (.expectedValue 1) ∧
    (Err.expectedValue 1) ≠ (Err.expectedValue 0) := by
  exact ⟨by with_unfolding_all rfl, by decide⟩

/-- C9 (amended): evaluating an empty string raises the
expected-number-or-identifier error at offset 0; a whitespace-only
string raises the same error at the offset just past the skipped
whitespace run (its length). -/
theorem empty_input_syntax_error :
    evalVal initState "" = .error (.expectedValue 0) ∧
    evalVal initState " " = .error (.expectedValue 1) ∧
    evalVal initState "  " = .error (.expectedValue 2) ∧
    evalVal initState "\t " = .error (.expectedValue 2) := by
  refine ⟨by with_unfolding_all rfl, by with_unfolding_all rfl,
    by with_unfolding_all rfl, by with_unfolding_all rfl⟩

/-- C10: plain assignment copies the numeric value, not the binding:
whenever `=` succeeds on distinct references the left reference is
returned, the right operand's cell is untouched, and a later write to
the right cell leaves the left cell's value unchanged; concretely,
after `x = y` a reassignment of `y` does not move `x`, and vice versa. -/
theorem assignment_copies_value :
    (∀ st a b r st', a ≠ b → assignExec [a, b] st = .ok (r, st') →
      r = a ∧ st'.store.getD b dfltB = st.store.getD b dfltB ∧
      ∀ v st2, putV b v st' = .ok ((), st2) → readRef st2 a = readRef st' a) ∧
    evalVal initState "y = 3; x = y; y = 7; x" = .ok (.num 3) ∧
    evalVal initState "y = 3; x = y; x = 8; y" = .ok (.num 3) := by
  refine ⟨?_, by with_unfolding_all rfl, by with_unfolding_all rfl⟩
  intro st a b r st' hne h
  obtain ⟨hlv, hr, hst⟩ := assignExec_ok_shape st a b r st' h
  subst hst
  refine ⟨hr, ?_, ?_⟩
  · exact getD_set_ne dfltB _ a b hne st.store
  · intro v st2 hput
    cases hlvb : (({ st with store := st.store.set a ⟨readRef st b, false⟩ } : St).store.getD
        b dfltB).lvalue with
    | true =>
      rw [putV_apply_true _ _ _ hlvb] at hput
      exact absurd hput (by simp)
    | false =>
      rw [putV_apply_false _ _ _ hlvb, Except.ok.injEq, Prod.mk.injEq] at hput
      rw [← hput.2]
      show ((((st.store.set a ⟨readRef st b, false⟩).set b _).getD a dfltB)).value
        = (((st.store.set a ⟨readRef st b, false⟩).getD a dfltB)).value
      rw [getD_set_ne dfltB _ b a (fun hba => hne hba.symm)]

/-- Two-cell mutable stores instantiating the assignment-copy theorem:
before `x = y`, after it, and after the later write `y := 9`. -/
def c10st : St := ⟨[], 0, [⟨.num 0, false⟩, ⟨.num 7, false⟩], [], []⟩

/-- After `assignExec [0, 1]` on `c10st`: cell 0 received the value 7. -/
def c10st' : St := ⟨[], 0, [⟨.num 7, false⟩, ⟨.num 7, false⟩], [], []⟩

/-- After the later write of 9 into cell 1 of `c10st'`. -/
def c10st2 : St := ⟨[], 0, [⟨.num 7, false⟩, ⟨.num 9, false⟩], [], []⟩

/-- Witness for C10: at the concrete two-cell store, the later write
to cell 1 leaves the value of cell 0 unchanged. -/
theorem assignment_copies_value_witness :
    readRef c10st2 0 = readRef c10st' 0 :=
  (assignment_copies_value.1 c10st 0 1 0 c10st' (by decide)
    (by with_unfolding_all rfl)).2.2 (.num 9) c10st2 (by with_unfolding_all rfl)

/-! ### Helper lemmas: the arity check is unreachable -/

theorem altLit_mem (t : List Char) (p : ℕ) :
    ∀ (alts : List (String × (Char → Bool))) (tok : String) (p' : ℕ),
      altLit t p alts = some (tok, p') → tok ∈ alts.map Prod.fst := by
  intro alts
  induction alts with
  | nil => intro tok p' h; simp [altLit] at h
  | cons hd rest ih =>
    intro tok p' h
    obtain ⟨s, bad⟩ := hd
    simp only [altLit] at h
    cases hl : litAt t s.data p with
    | none =>
      simp only [hl] at h
      exact List.mem_cons_of_mem _ (ih tok p' h)
    | some p'' =>
      simp only [hl] at h
      cases hg : t.get? p'' with
      | none =>
        simp only [hg] at h
        rw [Option.some.injEq, Prod.mk.injEq] at h
        rw [← h.1]
        exact List.mem_cons_self _ _
      | some c =>
        simp only [hg] at h
        split at h
        · exact List.mem_cons_of_mem _ (ih tok p' h)
        · rw [Option.some.injEq, Prod.mk.injEq] at h
          rw [← h.1]
          exact List.mem_cons_self _ _

set_option maxHeartbeats 2000000 in
theorem ruleMatch_arity (lvl : ℕ) (t : List Char) (p : ℕ) (tok : String) (p' : ℕ)
    (h : ruleMatch lvl t p = some (tok, p')) :
    ∃ d, opsLookup tok = some d ∧ (d.arity = 1 ∨ d.arity = 2) := by
  rcases lvl with _|_|_|_|_|_|_|_|_|_|_|_|_|_|n <;>
    first
      | (simp only [ruleMatch] at h
         have hm := altLit_mem t p _ tok p' h
         fin_cases hm <;> exact ⟨_, by with_unfolding_all rfl, by decide⟩)
      | simp [ruleMatch] at h

/-- Absence of the arity error on every run of a monadic computation. -/
def NoArity {α : Type} (m : JsM α) : Prop := ∀ st, m st ≠ .error .arityError

theorem noArity_of_ok {α : Type} (m : JsM α)
    (h : ∀ st, ∃ a st', m st = .ok (a, st')) : NoArity m := by
  intro st hc
  obtain ⟨a, st', hh⟩ := h st
  rw [hh] at hc
  exact Except.noConfusion hc

theorem noArity_jsBind {α β : Type} {m : JsM α} {f : α → JsM β}
    (hm : NoArity m) (hf : ∀ a, NoArity (f a)) : NoArity (jsBind m f) := by
  intro st h
  unfold jsBind at h
  cases hms : m st with
  | error e =>
    simp only [hms] at h
    rw [Except.error.injEq] at h
    subst h
    exact hm st hms
  | ok pr =>
    obtain ⟨a, st1⟩ := pr
    simp only [hms] at h
    exact hf a st1 h

theorem noArity_bind {α β : Type} {m : JsM α} {f : α → JsM β}
    (hm : NoArity m) (hf : ∀ a, NoArity (f a)) : NoArity (m >>= f) := by
  rw [bind_eq_jsBind]
  exact noArity_jsBind hm hf

theorem jsBind_arity_elim {α β : Type} (m : JsM α) (f : α → JsM β) (st : St)
    (h : jsBind m f st = .error .arityError) (hm : NoArity m) :
    ∃ a st1, m st = .ok (a, st1) ∧ f a st1 = .error .arityError := by
  unfold jsBind at h
  cases hms : m st with
  | error e =>
    simp only [hms] at h
    rw [Except.error.injEq] at h
    subst h
    exact absurd hms (hm st)
  | ok pr =>
    obtain ⟨a, st1⟩ := pr
    simp only [hms] at h
    exact ⟨a, st1, rfl, h⟩

theorem noArity_pure {α : Type} (a : α) : NoArity (pure a : JsM α) := by
  intro st h
  rw [pure_apply] at h
  exact Except.noConfusion h

theorem noArity_throwJs {α : Type} (e : Err) (he : e ≠ .arityError) :
    NoArity (throwJs e : JsM α) := by
  intro st h
  exact he (Except.error.inj h)

theorem noArity_getV (r : ℕ) : NoArity (getV r) :=
  noArity_of_ok _ (fun st => ⟨_, _, getV_apply r st⟩)

theorem noArity_getLv (r : ℕ) : NoArity (getLv r) :=
  noArity_of_ok _ (fun st => ⟨_, _, getLv_apply r st⟩)

theorem noArity_mkLv (v : JSVal) : NoArity (mkLv v) :=
  noArity_of_ok _ (fun st => ⟨_, _, mkLv_apply v st⟩)

theorem noArity_putV (r : ℕ) (v : JSVal) : NoArity (putV r v) := by
  intro st h
  unfold putV at h
  split at h
  · exact Err.noConfusion (Except.error.inj h)
  · exact Except.noConfusion h

theorem acceptAlts_ok (alts : List (String × (Char → Bool))) (st : St) :
    ∃ o st', acceptAlts alts st = .ok (o, st') := by
  rcases h : altLit st.text st.pos alts with _ | ⟨tok, p'⟩
  · exact ⟨none, st, by unfold acceptAlts; simp only [h]⟩
  · exact ⟨some tok, _, by unfold acceptAlts; simp only [h]; rfl⟩

theorem acceptRule_ok (lvl : ℕ) (st : St) :
    ∃ o st', acceptRule lvl st = .ok (o, st') := by
  rcases h : ruleMatch lvl st.text st.pos with _ | ⟨tok, p'⟩
  · exact ⟨none, st, by unfold acceptRule; simp only [h]⟩
  · exact ⟨some tok, _, by unfold acceptRule; simp only [h]; rfl⟩

theorem acceptLit_ok (s : String) (st : St) :
    ∃ o st', acceptLit s st = .ok (o, st') := by
  rcases h : litAt st.text s.data st.pos with _ | p'
  · exact ⟨false, st, by unfold acceptLit; simp only [h]⟩
  · exact ⟨true, _, by unfold acceptLit; simp only [h]; rfl⟩

theorem acceptNumber_ok (st : St) : ∃ o st', acceptNumber st = .ok (o, st') := by
  rcases h : matchNumber st.text st.pos with _ | ⟨q, p'⟩
  · exact ⟨none, st, by unfold acceptNumber; simp only [h]⟩
  · exact ⟨some _, _, by unfold acceptNumber; simp only [h]; rfl⟩

theorem acceptIdent_ok (st : St) : ∃ o st', acceptIdent st = .ok (o, st') := by
  rcases h : matchIdent st.text st.pos with _ | ⟨name, p'⟩
  · exact ⟨none, st, by unfold acceptIdent; simp only [h]⟩
  · rcases he : (skipWsSt { st with pos := p' }).env.lookup name with _ | r
    · exact ⟨some _, _, by unfold acceptIdent; simp only [h]; simp only [he]; rfl⟩
    · exact ⟨some r, _, by unfold acceptIdent; simp only [h]; simp only [he]; rfl⟩

theorem acceptRule_some (lvl : ℕ) (st st' : St) (tok : String)
    (h : acceptRule lvl st = .ok (some tok, st')) :
    ∃ p', ruleMatch lvl st.text st.pos = some (tok, p') := by
  unfold acceptRule at h
  cases hr : ruleMatch lvl st.text st.pos with
  | none => simp only [hr] at h; simp at h
  | some pr =>
    obtain ⟨tk, p'⟩ := pr
    simp only [hr] at h
    rw [Except.ok.injEq, Prod.mk.injEq] at h
    have : tk = tok := Option.some.inj h.1
    subst this
    exact ⟨p', rfl⟩

theorem lookup_mem {β : Type} :
    ∀ (l : List (String × β)) (s : String) (b : β), l.lookup s = some b → (s, b) ∈ l := by
  intro l
  induction l with
  | nil => intro s b h; simp [List.lookup] at h
  | cons hd rest ih =>
    intro s b h
    obtain ⟨k, v⟩ := hd
    cases hbe : s == k with
    | true =>
      simp only [List.lookup, hbe] at h
      rw [Option.some.injEq] at h
      subst h
      have hk : s = k := eq_of_beq hbe
      subst hk
      exact List.mem_cons_self _ _
    | false =>
      simp only [List.lookup, hbe] at h
      exact List.mem_cons_of_mem _ (ih s b h)

theorem noArity_binExec (f : JSVal → JSVal → JSVal) (args : List ℕ) :
    NoArity (binExec f args) := by
  rcases args with _ | ⟨a, _ | ⟨b, _ | ⟨c, rest⟩⟩⟩
  · exact noArity_throwJs _ (by decide)
  · exact noArity_throwJs _ (by decide)
  · exact noArity_bind (noArity_getV a)
      (fun va => noArity_bind (noArity_getV b) (fun vb => noArity_mkLv _))
  · exact noArity_throwJs _ (by decide)

theorem noArity_commaExec (args : List ℕ) : NoArity (commaExec args) := by
  rcases args with _ | ⟨a, _ | ⟨b, _ | ⟨c, rest⟩⟩⟩
  · exact noArity_throwJs _ (by decide)
  · exact noArity_throwJs _ (by decide)
  · exact noArity_pure b
  · exact noArity_throwJs _ (by decide)

theorem noArity_assignExec (args : List ℕ) : NoArity (assignExec args) := by
  rcases args with _ | ⟨a, _ | ⟨b, _ | ⟨c, rest⟩⟩⟩
  · exact noArity_throwJs _ (by decide)
  · exact noArity_throwJs _ (by decide)
  · exact noArity_bind (noArity_getV b)
      (fun vb => noArity_bind (noArity_putV a vb) (fun _ => noArity_pure a))
  · exact noArity_throwJs _ (by decide)

theorem noArity_compExec (f : ℚ → ℚ → ℚ) (args : List ℕ) :
    NoArity (compExec f args) := by
  rcases args with _ | ⟨a, _ | ⟨b, _ | ⟨c, rest⟩⟩⟩
  · exact noArity_throwJs _ (by decide)
  · exact noArity_throwJs _ (by decide)
  · exact noArity_bind (noArity_getV a)
      (fun va => noArity_bind (noArity_getV b)
        (fun vb => noArity_bind (noArity_putV a _) (fun _ => noArity_pure a)))
  · exact noArity_throwJs _ (by decide)

theorem noArity_postExec (d : ℚ) (args : List ℕ) : NoArity (postExec d args) := by
  rcases args with _ | ⟨a, _ | ⟨b, rest⟩⟩
  · exact noArity_throwJs _ (by decide)
  · exact noArity_bind (noArity_getV a)
      (fun va => noArity_bind (noArity_putV a _) (fun _ => noArity_mkLv _))
  · exact noArity_throwJs _ (by decide)

theorem noArity_factExec (args : List ℕ) : NoArity (factExec args) := by
  rcases args with _ | ⟨a, _ | ⟨b, rest⟩⟩
  · exact noArity_throwJs _ (by decide)
  · exact noArity_of_ok _ (fun st => ⟨_, _, rfl⟩)
  · exact noArity_throwJs _ (by decide)

set_option maxHeartbeats 4000000 in
theorem opsExec_noArity (tok : String) (d : OpDesc) (hd : opsLookup tok = some d)
    (args : List ℕ) : NoArity (d.exec args) := by
  have hmem : (tok, d) ∈ opsTable := lookup_mem opsTable tok d hd
  fin_cases hmem <;>
    first
      | exact noArity_binExec _ args
      | exact noArity_postExec _ args
      | exact noArity_commaExec args
      | exact noArity_factExec args
      | exact noArity_assignExec args
      | exact noArity_compExec powQ args
      | exact noArity_compExec (· * ·) args
      | exact noArity_compExec (· + ·) args
      | exact noArity_compExec (· - ·) args
      | exact noArity_compExec divQ args
      | exact noArity_compExec remQ args
      | exact noArity_compExec (fun x y => ((shrUQ x y : ℤ) : ℚ)) args
      | exact noArity_compExec (fun x y => ((shrQ x y : ℤ) : ℚ)) args
      | exact noArity_compExec (fun x y => ((shlQ x y : ℤ) : ℚ)) args
      | exact noArity_compExec (fun x y => ((bandQ x y : ℤ) : ℚ)) args
      | exact noArity_compExec (fun x y => ((bxorQ x y : ℤ) : ℚ)) args
      | exact noArity_compExec (fun x y => ((borQ x y : ℤ) : ℚ)) args

set_option maxHeartbeats 1000000 in
theorem preExec_noArity (tok : String) (g : ℕ → JsM ℕ) (hg : preLookup tok = some g)
    (a : ℕ) : NoArity (g a) := by
  have hmem : (tok, g) ∈ preTable := lookup_mem preTable tok g hg
  fin_cases hmem <;>
    first
      | exact noArity_bind (noArity_getV a)
          (fun va => noArity_bind (noArity_putV a _) (fun _ => noArity_mkLv _))
      | exact noArity_bind (noArity_getV a) (fun va => noArity_mkLv _)

theorem noArity_throwAt {α : Type} (f : ℕ → Err) (hf : ∀ p, f p ≠ .arityError) :
    NoArity (throwAt f : JsM α) := by
  intro st h
  exact hf st.pos (Except.error.inj h)

theorem noArity_valStep : NoArity valStep := by
  intro st h
  unfold valStep at h
  rw [bind_eq_jsBind] at h
  obtain ⟨n?, st1, _, h⟩ := jsBind_arity_elim _ _ _ h (noArity_of_ok _ acceptNumber_ok)
  try simp only [] at h
  rw [bind_eq_jsBind] at h
  obtain ⟨r?, st2, _, h⟩ := jsBind_arity_elim _ _ _ h
    (by cases n? with
        | some r => exact noArity_pure _
        | none => exact noArity_of_ok _ acceptIdent_ok)
  try simp only [] at h
  cases r? with
  | none =>
    try simp only [] at h
    exact noArity_throwAt .expectedValue (fun p hp => Err.noConfusion hp) st2 h
  | some r =>
    try simp only [] at h
    rw [bind_eq_jsBind] at h
    obtain ⟨lv, st3, _, h⟩ := jsBind_arity_elim _ _ _ h (noArity_getLv r)
    try simp only [] at h
    cases lv with
    | true =>
      rw [if_pos (by decide)] at h
      exact noArity_pure r st3 h
    | false =>
      rw [if_neg (by decide)] at h
      rw [bind_eq_jsBind] at h
      obtain ⟨post?, st4, _, h⟩ := jsBind_arity_elim _ _ _ h
        (noArity_of_ok _ (acceptAlts_ok postAlts))
      try simp only [] at h
      cases post? with
      | none =>
        try simp only [] at h
        exact noArity_pure r st4 h
      | some post =>
        try simp only [] at h
        rcases hop : opsLookup post with _ | d
        · simp only [hop] at h
          exact noArity_throwJs Err.missingOp (by decide) st4 h
        · simp only [hop] at h
          exact opsExec_noArity post d hop [r] st4 h

theorem noArity_parenStep (rec : PMode → JsM ℕ) (hrec : ∀ m, NoArity (rec m)) :
    NoArity (parenStep rec) := by
  intro st h
  unfold parenStep at h
  rw [bind_eq_jsBind] at h
  obtain ⟨b, st1, _, h⟩ := jsBind_arity_elim _ _ _ h (noArity_of_ok _ (acceptLit_ok "("))
  try simp only [] at h
  cases b with
  | false =>
    rw [if_neg (by decide)] at h
    exact hrec .val st1 h
  | true =>
    rw [if_pos (by decide)] at h
    rw [bind_eq_jsBind] at h
    obtain ⟨r, st2, _, h⟩ := jsBind_arity_elim _ _ _ h (hrec .expr)
    try simp only [] at h
    rw [bind_eq_jsBind] at h
    obtain ⟨b2, st3, _, h⟩ := jsBind_arity_elim _ _ _ h (noArity_of_ok _ (acceptLit_ok ")"))
    try simp only [] at h
    cases b2 with
    | true =>
      rw [if_pos (by decide)] at h
      exact noArity_pure r st3 h
    | false =>
      rw [if_neg (by decide)] at h
      exact noArity_throwAt .expectedClose (fun p hp => Err.noConfusion hp) st3 h

theorem noArity_preStep (rec : PMode → JsM ℕ) (hrec : ∀ m, NoArity (rec m)) :
    NoArity (preStep rec) := by
  intro st h
  unfold preStep at h
  rw [bind_eq_jsBind] at h
  obtain ⟨tok?, st1, _, h⟩ := jsBind_arity_elim _ _ _ h (noArity_of_ok _ (acceptAlts_ok preAlts))
  try simp only [] at h
  cases tok? with
  | none =>
    try simp only [] at h
    exact hrec .paren st1 h
  | some tok =>
    try simp only [] at h
    rcases hg : preLookup tok with _ | g
    · simp only [hg] at h
      exact noArity_throwJs Err.missingOp (by decide) st1 h
    · simp only [hg] at h
      rw [bind_eq_jsBind] at h
      obtain ⟨x, st2, _, h⟩ := jsBind_arity_elim _ _ _ h (hrec .pre)
      try simp only [] at h
      exact preExec_noArity tok g hg x st2 h

theorem noArity_opLvlStep (rec : PMode → JsM ℕ) (hrec : ∀ m, NoArity (rec m)) (lvl : ℕ) :
    NoArity (opLvlStep rec lvl) := by
  unfold opLvlStep
  by_cases hge : lvl ≥ rulesLength
  · rw [if_pos hge]; exact hrec .pre
  · rw [if_neg hge]; exact noArity_bind (hrec _) (fun v => hrec _)

theorem noArity_opLoopStep (rec : PMode → JsM ℕ) (hrec : ∀ m, NoArity (rec m))
    (lvl cur : ℕ) : NoArity (opLoopStep rec lvl cur) := by
  intro st h
  unfold opLoopStep at h
  rw [bind_eq_jsBind] at h
  obtain ⟨tok?, st1, hok, h⟩ :=
    jsBind_arity_elim _ _ _ h (noArity_of_ok _ (acceptRule_ok lvl))
  try simp only [] at h
  cases tok? with
  | none =>
    try simp only [] at h
    exact noArity_pure cur st1 h
  | some tok =>
    try simp only [] at h
    obtain ⟨p', hrm⟩ := acceptRule_some lvl st st1 tok hok
    obtain ⟨d, hd, har⟩ := ruleMatch_arity lvl st.text st.pos tok p' hrm
    simp only [hd] at h
    rcases har with h1 | h1
    · simp only [h1] at h
      rw [bind_eq_jsBind] at h
      obtain ⟨v, st2, hok2, h⟩ := jsBind_arity_elim _ _ _ h (opsExec_noArity tok d hd [cur])
      try simp only [] at h
      exact hrec _ st2 h
    · simp only [h1] at h
      rw [bind_eq_jsBind] at h
      obtain ⟨rhs, st2, hok2, h⟩ := jsBind_arity_elim _ _ _ h (hrec _)
      try simp only [] at h
      rw [bind_eq_jsBind] at h
      obtain ⟨v, st3, hok3, h⟩ :=
        jsBind_arity_elim _ _ _ h (opsExec_noArity tok d hd [cur, rhs])
      try simp only [] at h
      exact hrec _ st3 h

theorem parseStep_noArity (rec : PMode → JsM ℕ) (hrec : ∀ m, NoArity (rec m)) :
    ∀ mode, NoArity (parseStep rec mode) := by
  intro mode
  cases mode with
  | val => exact noArity_valStep
  | paren => exact noArity_parenStep rec hrec
  | pre => exact noArity_preStep rec hrec
  | opLvl lvl => exact noArity_opLvlStep rec hrec lvl
  | opLoop lvl cur => exact noArity_opLoopStep rec hrec lvl cur
  | expr => exact hrec _

theorem parseRun_noArity : ∀ (fuel : ℕ) (mode : PMode), NoArity (parseRun fuel mode) := by
  intro fuel
  induction fuel with
  | zero => intro mode; exact noArity_throwJs _ (by decide)
  | succ f ih => intro mode; exact parseStep_noArity (parseRun f) ih mode

theorem evalLoop_noArity : ∀ (fuel ret : ℕ), NoArity (evalLoop fuel ret) := by
  intro fuel
  induction fuel with
  | zero => intro ret; exact noArity_throwJs _ (by decide)
  | succ f ih =>
    intro ret st h
    replace h : evalStep f (evalLoop f) ret st = .error .arityError := h
    unfold evalStep at h
    split at h
    · cases hm : matchEOS st.text st.pos with
      | some p' =>
        simp only [hm] at h
        split at h
        · rw [bind_eq_jsBind] at h
          obtain ⟨r, st2, hok, h⟩ := jsBind_arity_elim _ _ _ h (parseRun_noArity f .expr)
          exact ih r st2 h
        · exact ih ret _ h
      | none =>
        simp only [hm] at h
        exact Err.noConfusion (Except.error.inj h)
    · exact Except.noConfusion h

theorem evaluateJS_noArity (p : PState) (text : String) :
    evaluateJS p text ≠ .error .arityError := by
  intro h
  unfold evaluateJS at h
  cases hr : (parseRun (fuelFor text.data) .expr >>= fun r =>
      evalLoop (fuelFor text.data) r >>= fun r2 => getV r2)
      (skipWsSt ⟨text.data, 0, p.store, p.env, p.cache⟩) with
  | error e =>
    simp only [hr] at h
    rw [Except.error.injEq] at h
    subst h
    have hna : NoArity (parseRun (fuelFor text.data) .expr >>= fun r =>
        evalLoop (fuelFor text.data) r >>= fun r2 => getV r2) :=
      noArity_bind (parseRun_noArity _ _)
        (fun r => noArity_bind (evalLoop_noArity _ r) (fun r2 => noArity_getV r2))
    exact hna _ hr
  | ok pr =>
    obtain ⟨v, st'⟩ := pr
    simp only [hr] at h
    exact Except.noConfusion h

/-- C8: the defensive arity check is unreachable — every operator
token producible by any level of the rules table looks up to a
descriptor of arity 1 or 2 in the operations table, and consequently no
`evaluate` call on any input ever returns the arity error. -/
theorem arity_check_unreachable :
    (∀ lvl t p tok p', ruleMatch lvl t p = some (tok, p') →
      ∃ d, opsLookup tok = some d ∧ (d.arity = 1 ∨ d.arity = 2)) ∧
    ∀ p text, evaluateJS p text ≠ .error .arityError :=
  ⟨fun lvl t p tok p' h => ruleMatch_arity lvl t p tok p' h,
   fun p text => evaluateJS_noArity p text⟩

/-- Witness for C8: the comma token matched by level 0 has arity 2,
and a concrete evaluation does not raise the arity error. -/
theorem arity_check_unreachable_witness :
    (∃ d, opsLookup "," = some d ∧ (d.arity = 1 ∨ d.arity = 2)) ∧
    evaluateJS initState "1+2" ≠ .error .arityError :=
  ⟨arity_check_unreachable.1 0 (",".data) 0 "," 1 (by with_unfolding_all rfl),
   arity_check_unreachable.2 initState "1+2"⟩
